import Mathlib

/-
Verification of the rusty-data core: the quote-aware line tokenizer
(`loader.rs`, `LineSplitIter`) and the string-backed columnar storage with
casting and categorical encoding (`datatable.rs`, `DataColumn` / `DataTable`).

Strings are modelled at the character level (`List Char`); per-type parsing
(`T::from_str`) is modelled by an abstract `parse : String → Option α`;
fallible operations return `Except DataError`.
-/

set_option autoImplicit false

namespace RustyData

variable {α : Type}

/-! ## Tokenizer (`LineSplitIter` in loader.rs) -/

/-- Model of `self.line.find(self.delimiter)`: index of the first occurrence
of the delimiter in the remaining line. -/
def findDelim (d : Char) : List Char → Option Nat
  | [] => none
  | c :: cs => if c = d then some 0 else (findDelim d cs).map (· + 1)

/-- Model of the `find` closure used when a quote character is configured:
a quote character toggles `in_quotes` (and is never itself a match); the
delimiter matches only while `in_quotes` is false. Returns the index of the
first unquoted delimiter. -/
def findUnquoted (q d : Char) (inQ : Bool) : List Char → Option Nat
  | [] => none
  | c :: cs =>
    if c = q then (findUnquoted q d (!inQ) cs).map (· + 1)
    else if c = d ∧ inQ = false then some 0
    else (findUnquoted q d inQ cs).map (· + 1)

/-- The `drain_offset` computation in `LineSplitIter::next`: dispatch on
whether a quote character is configured. -/
def findOffset (q : Option Char) (d : Char) (l : List Char) : Option Nat :=
  match q with
  | none => findDelim d l
  | some qc => findUnquoted qc d false l

/-- Model of Rust `str::trim_matches(c)`: remove every leading and trailing
occurrence of `c`. -/
def trimMatches (c : Char) (l : List Char) : List Char :=
  ((l.dropWhile (· = c)).reverse.dropWhile (· = c)).reverse

/-- The post-cut treatment of a delimiter-terminated field in
`LineSplitIter::next`: with no quote configured the field is returned as-is,
otherwise its outer quote characters are trimmed. -/
def fieldTrim (q : Option Char) (t : List Char) : List Char :=
  match q with
  | none => t
  | some qc => trimMatches qc t

theorem findDelim_lt {d : Char} : ∀ {l : List Char} {k : Nat},
    findDelim d l = some k → k < l.length := by
  intro l
  induction l with
  | nil => intro k h; simp [findDelim] at h
  | cons c cs ih =>
    intro k h
    simp only [findDelim] at h
    by_cases hc : c = d
    · rw [if_pos hc] at h
      injection h with h
      simp only [List.length_cons]
      omega
    · rw [if_neg hc] at h
      obtain ⟨k', hk', hk2⟩ := Option.map_eq_some'.mp h
      have := ih hk'
      simp only [List.length_cons]
      omega

theorem findUnquoted_lt {q d : Char} : ∀ {l : List Char} {s : Bool} {k : Nat},
    findUnquoted q d s l = some k → k < l.length := by
  intro l
  induction l with
  | nil => intro s k h; simp [findUnquoted] at h
  | cons c cs ih =>
    intro s k h
    simp only [findUnquoted] at h
    by_cases hc : c = q
    · rw [if_pos hc] at h
      obtain ⟨k', hk', hk2⟩ := Option.map_eq_some'.mp h
      have := ih hk'
      simp only [List.length_cons]
      omega
    · rw [if_neg hc] at h
      by_cases hd : c = d ∧ s = false
      · rw [if_pos hd] at h
        injection h with h
        simp only [List.length_cons]
        omega
      · rw [if_neg hd] at h
        obtain ⟨k', hk', hk2⟩ := Option.map_eq_some'.mp h
        have := ih hk'
        simp only [List.length_cons]
        omega

theorem findOffset_lt {q : Option Char} {d : Char} {l : List Char} {k : Nat}
    (h : findOffset q d l = some k) : k < l.length := by
  cases q with
  | none => exact findDelim_lt h
  | some qc => exact findUnquoted_lt h

/-- Model of iterating `LineSplitIter::next` to exhaustion: the full list of
fields produced for one line. An empty remaining line ends the sequence;
otherwise the text before the first (unquoted) delimiter is cut out as one
field (trimmed per `fieldTrim`) and iteration continues past the delimiter;
when no delimiter is found the remainder of the line is the final field,
returned verbatim. -/
def lineSplit (q : Option Char) (d : Char) (line : List Char) : List (List Char) :=
  if _hl : line = [] then []
  else
    match ho : findOffset q d line with
    | some off => fieldTrim q (line.take off) :: lineSplit q d (line.drop (off + 1))
    | none => [line]
termination_by line.length
decreasing_by
  have hlt := findOffset_lt ho
  simp only [List.length_drop]
  omega

theorem lineSplit_nil {q : Option Char} {d : Char} : lineSplit q d [] = [] := by
  rw [lineSplit]
  simp

theorem lineSplit_of_found {q : Option Char} {d : Char} {L : List Char} {k : Nat}
    (h : findOffset q d L = some k) :
    lineSplit q d L = fieldTrim q (L.take k) :: lineSplit q d (L.drop (k + 1)) := by
  have hL : L ≠ [] := by
    rintro rfl
    cases q <;> simp [findOffset, findDelim, findUnquoted] at h
  rw [lineSplit]
  simp only [hL, dite_false]
  split
  · rename_i k' hk'
    rw [h] at hk'
    cases hk'
    rfl
  · rename_i hnone
    rw [h] at hnone
    cases hnone

theorem lineSplit_of_none {q : Option Char} {d : Char} {L : List Char}
    (hL : L ≠ []) (h : findOffset q d L = none) :
    lineSplit q d L = [L] := by
  rw [lineSplit]
  simp only [hL, dite_false]
  split
  · rename_i k' hk'
    rw [h] at hk'
    cases hk'
  · rfl

theorem lineSplit_ne_nil {q : Option Char} {d : Char} {L : List Char}
    (hL : L ≠ []) : lineSplit q d L ≠ [] := by
  cases ho : findOffset q d L with
  | none => rw [lineSplit_of_none hL ho]; simp
  | some k => rw [lineSplit_of_found ho]; simp

/-- Prepend a character to the first field of a field list (used to relate
splitting `c :: cs` to splitting `cs` when `c` is not the delimiter). -/
def consHead (c : Char) : List (List Char) → List (List Char)
  | [] => [[c]]
  | f :: fs => (c :: f) :: fs

/-- Join a list of fields with the delimiter `d` between consecutive fields
(the rejoining operation of the round-trip property). -/
def joinWith (d : Char) : List (List Char) → List Char
  | [] => []
  | [f] => f
  | f :: fs => f ++ d :: joinWith d fs

theorem joinWith_cons {d : Char} {f : List Char} {fs : List (List Char)}
    (h : fs ≠ []) : joinWith d (f :: fs) = f ++ d :: joinWith d fs := by
  cases fs with
  | nil => cases h rfl
  | cons g gs => rfl

theorem joinWith_consHead {d c : Char} {fs : List (List Char)} (h : fs ≠ []) :
    joinWith d (consHead c fs) = c :: joinWith d fs := by
  cases fs with
  | nil => cases h rfl
  | cons f gs =>
    cases gs with
    | nil => rfl
    | cons g gs' => rfl

theorem lineSplit_none_delim {d : Char} {cs : List Char} :
    lineSplit none d (d :: cs) = [] :: lineSplit none d cs := by
  have h : findOffset none d (d :: cs) = some 0 := by
    simp [findOffset, findDelim]
  rw [lineSplit_of_found h]
  rfl

theorem lineSplit_none_cons {d c : Char} {cs : List Char} (hc : c ≠ d) :
    lineSplit none d (c :: cs) = consHead c (lineSplit none d cs) := by
  cases hf : findDelim d cs with
  | none =>
    have h : findOffset none d (c :: cs) = none := by
      simp [findOffset, findDelim, hc, hf]
    rw [lineSplit_of_none (by simp) h]
    cases hcs : cs with
    | nil =>
      rw [hcs] at *
      rw [lineSplit_nil]
      rfl
    | cons b bs =>
      subst hcs
      have h2 : findOffset none d (b :: bs) = none := by simp [findOffset, hf]
      rw [lineSplit_of_none (by simp) h2]
      rfl
  | some k =>
    have h : findOffset none d (c :: cs) = some (k + 1) := by
      simp [findOffset, findDelim, hc, hf]
    have h2 : findOffset none d cs = some k := by simp [findOffset, hf]
    rw [lineSplit_of_found h, lineSplit_of_found h2]
    rfl

theorem getLast?_cons_of_ne_nil {c : Char} {cs : List Char} (h : cs ≠ []) :
    (c :: cs).getLast? = cs.getLast? := by
  cases cs with
  | nil => cases h rfl
  | cons b bs => exact List.getLast?_cons_cons

theorem dropLast_cons_of_ne_nil {c : Char} {cs : List Char} (h : cs ≠ []) :
    (c :: cs).dropLast = c :: cs.dropLast := by
  cases cs with
  | nil => cases h rfl
  | cons b bs => rfl

/-- C2: the claimed unconditional round trip fails on the code: the line
`"a,"` tokenizes to the single field `"a"` — the terminal delimiter does not
produce a trailing empty field — so rejoining yields `"a"`, not `"a,"`. -/
theorem claim_C2_counterexample :
    joinWith ',' (lineSplit none ',' ['a', ',']) ≠ ['a', ','] := by
  have h1 : lineSplit none ',' ['a', ','] = [['a']] := by
    rw [lineSplit_none_cons (by decide), lineSplit_none_delim, lineSplit_nil]
    rfl
  rw [h1]
  decide

/-- C2 (amended): with no quote marker configured, joining the produced
fields with the delimiter reproduces the line exactly when the line does not
end with the delimiter; a terminal delimiter is consumed without producing a
trailing empty field, so for a line ending in the delimiter the rejoin
reproduces the line minus that final delimiter. The empty line yields zero
fields. -/
theorem claim_C2_amended (d : Char) (L : List Char) :
    (joinWith d (lineSplit none d L) =
      if L.getLast? = some d then L.dropLast else L)
    ∧ lineSplit none d ([] : List Char) = [] := by
  refine ⟨?_, lineSplit_nil⟩
  induction L with
  | nil => simp [lineSplit_nil, joinWith]
  | cons c cs ih =>
    by_cases hc : c = d
    · subst hc
      rw [lineSplit_none_delim]
      rcases eq_or_ne cs [] with rfl | hcs
      · rw [lineSplit_nil]
        simp [joinWith]
      · rw [joinWith_cons (lineSplit_ne_nil hcs), ih,
            getLast?_cons_of_ne_nil hcs, dropLast_cons_of_ne_nil hcs]
        by_cases hlast : cs.getLast? = some c <;> simp [hlast]
    · rw [lineSplit_none_cons hc]
      rcases eq_or_ne cs [] with rfl | hcs
      · rw [lineSplit_nil]
        simp [consHead, joinWith, hc]
      · rw [joinWith_consHead (lineSplit_ne_nil hcs), ih,
            getLast?_cons_of_ne_nil hcs, dropLast_cons_of_ne_nil hcs]
        by_cases hlast : cs.getLast? = some d <;> simp [hlast]

/-- Number of delimiter occurrences outside quoted regions: scan with the
same toggle rule as the tokenizer's `find` closure, counting the positions
where the delimiter is seen while `in_quotes` is false. -/
def countUnquoted (q d : Char) (s : Bool) : List Char → Nat
  | [] => 0
  | c :: cs =>
    if c = q then countUnquoted q d (!s) cs
    else if c = d ∧ s = false then countUnquoted q d s cs + 1
    else countUnquoted q d s cs

/-- Whether the final character of the line is a delimiter occurring outside
a quoted region (under the same toggle rule). -/
def endsUnquotedDelim (q d : Char) (s : Bool) : List Char → Bool
  | [] => false
  | [c] => if c = q then false else if c = d ∧ s = false then true else false
  | c :: cs => endsUnquotedDelim q d (if c = q then !s else s) cs

theorem findUnquoted_none_spec {q d : Char} : ∀ {l : List Char} {s : Bool},
    findUnquoted q d s l = none →
    countUnquoted q d s l = 0 ∧ endsUnquotedDelim q d s l = false := by
  intro l
  induction l with
  | nil => intro s _; exact ⟨rfl, rfl⟩
  | cons c cs ih =>
    intro s h
    simp only [findUnquoted] at h
    by_cases hc : c = q
    · rw [if_pos hc] at h
      have h' : findUnquoted q d (!s) cs = none := Option.map_eq_none'.mp h
      obtain ⟨hcount, hends⟩ := ih h'
      refine ⟨?_, ?_⟩
      · simp only [countUnquoted, if_pos hc]
        exact hcount
      · cases cs with
        | nil => simp [endsUnquotedDelim, hc]
        | cons b bs =>
          simp only [endsUnquotedDelim, if_pos hc]
          exact hends
    · rw [if_neg hc] at h
      by_cases hd : c = d ∧ s = false
      · rw [if_pos hd] at h; cases h
      · rw [if_neg hd] at h
        have h' : findUnquoted q d s cs = none := Option.map_eq_none'.mp h
        obtain ⟨hcount, hends⟩ := ih h'
        refine ⟨?_, ?_⟩
        · simp only [countUnquoted, if_neg hc, if_neg hd]
          exact hcount
        · cases cs with
          | nil => simp [endsUnquotedDelim, hc, hd]
          | cons b bs =>
            simp only [endsUnquotedDelim, if_neg hc]
            exact hends

theorem findUnquoted_some_spec {q d : Char} : ∀ {l : List Char} {s : Bool} {k : Nat},
    findUnquoted q d s l = some k →
    countUnquoted q d s l = countUnquoted q d false (l.drop (k + 1)) + 1
    ∧ endsUnquotedDelim q d s l =
        (if l.drop (k + 1) = [] then true
         else endsUnquotedDelim q d false (l.drop (k + 1))) := by
  intro l
  induction l with
  | nil => intro s k h; simp [findUnquoted] at h
  | cons c cs ih =>
    intro s k h
    simp only [findUnquoted] at h
    by_cases hc : c = q
    · rw [if_pos hc] at h
      obtain ⟨k', hk', hk2⟩ := Option.map_eq_some'.mp h
      subst hk2
      obtain ⟨hcount, hends⟩ := ih hk'
      have hcs : cs ≠ [] := by
        rintro rfl
        simp [findUnquoted] at hk'
      refine ⟨?_, ?_⟩
      · simp only [countUnquoted, if_pos hc, List.drop_succ_cons]
        exact hcount
      · cases cs with
        | nil => cases hcs rfl
        | cons b bs =>
          simp only [endsUnquotedDelim, if_pos hc, List.drop_succ_cons]
          exact hends
    · rw [if_neg hc] at h
      by_cases hd : c = d ∧ s = false
      · rw [if_pos hd] at h
        injection h with h
        subst h
        obtain ⟨hcd, hs⟩ := hd
        subst hs
        subst hcd
        refine ⟨?_, ?_⟩
        · simp [countUnquoted, hc]
        · cases cs with
          | nil => simp [endsUnquotedDelim, hc]
          | cons b bs =>
            simp only [endsUnquotedDelim, if_neg hc, List.drop_succ_cons, List.drop_zero,
              if_neg (List.cons_ne_nil b bs)]
      · rw [if_neg hd] at h
        obtain ⟨k', hk', hk2⟩ := Option.map_eq_some'.mp h
        subst hk2
        obtain ⟨hcount, hends⟩ := ih hk'
        have hcs : cs ≠ [] := by
          rintro rfl
          simp [findUnquoted] at hk'
        refine ⟨?_, ?_⟩
        · simp only [countUnquoted, if_neg hc, if_neg hd, List.drop_succ_cons]
          exact hcount
        · cases cs with
          | nil => cases hcs rfl
          | cons b bs =>
            simp only [endsUnquotedDelim, if_neg hc, List.drop_succ_cons]
            exact hends

theorem lineSplit_count_length {q d : Char} :
    ∀ (n : Nat) (L : List Char), L.length ≤ n → L ≠ [] →
    (lineSplit (some q) d L).length =
      countUnquoted q d false L
        + (if endsUnquotedDelim q d false L = true then 0 else 1) := by
  intro n
  induction n with
  | zero =>
    intro L hl hne
    cases L with
    | nil => cases hne rfl
    | cons c cs => simp at hl
  | succ n ih =>
    intro L hl hne
    cases ho : findUnquoted q d false L with
    | none =>
      rw [lineSplit_of_none hne (show findOffset (some q) d L = none from ho)]
      obtain ⟨h1, h2⟩ := findUnquoted_none_spec ho
      rw [h1, h2]
      simp
    | some k =>
      rw [lineSplit_of_found (show findOffset (some q) d L = some k from ho)]
      obtain ⟨h1, h2⟩ := findUnquoted_some_spec ho
      rcases eq_or_ne (L.drop (k + 1)) [] with hrest | hrest
      · rw [hrest] at h1 h2
        rw [hrest, lineSplit_nil, h1, h2]
        simp [countUnquoted]
      · have hk := findUnquoted_lt ho
        have hlen : (L.drop (k + 1)).length ≤ n := by
          simp only [List.length_drop]
          omega
        simp only [List.length_cons]
        rw [ih _ hlen hrest, h1, h2, if_neg hrest]
        by_cases hE : endsUnquotedDelim q d false (L.drop (k + 1)) = true <;>
          simp [hE]

theorem lineSplit_length_le {d : Char} (q : Option Char) :
    ∀ (n : Nat) (L : List Char), L.length ≤ n →
    (lineSplit q d L).length ≤ L.length := by
  intro n
  induction n with
  | zero =>
    intro L hl
    cases L with
    | nil => rw [lineSplit_nil]; simp
    | cons c cs => simp at hl
  | succ n ih =>
    intro L hl
    rcases eq_or_ne L [] with rfl | hne
    · rw [lineSplit_nil]; simp
    · cases ho : findOffset q d L with
      | none =>
        rw [lineSplit_of_none hne ho]
        have := List.length_pos.mpr hne
        simp only [List.length_singleton]
        omega
      | some k =>
        rw [lineSplit_of_found ho]
        have hk := findOffset_lt ho
        have hlen : (L.drop (k + 1)).length ≤ n := by
          simp only [List.length_drop]
          omega
        have := ih _ hlen
        simp only [List.length_cons, List.length_drop] at this ⊢
        omega

/-- C3: the claimed count formula fails on the code: the line `"a,"` with
quote `"` and delimiter `,` has balanced quotes (zero quote characters) and
exactly one unquoted delimiter, but the tokenizer produces one field, not
two — the terminal delimiter yields no trailing empty field. -/
theorem claim_C3_counterexample :
    (['a', ','] : List Char) ≠ []
    ∧ Even (List.count '"' ['a', ','])
    ∧ (lineSplit (some '"') ',' ['a', ',']).length ≠
        countUnquoted '"' ',' false ['a', ','] + 1 := by
  refine ⟨by decide, by decide, ?_⟩
  have h1 : lineSplit (some '"') ',' ['a', ','] = [['a']] := by
    rw [lineSplit_of_found (show findOffset (some '"') ',' ['a', ','] = some 1 by decide)]
    show fieldTrim (some '"') ['a'] :: lineSplit (some '"') ',' [] = [['a']]
    rw [lineSplit_nil]
    rfl
  rw [h1]
  decide

/-- C3 (amended): for every non-empty line with balanced quotes, the number
of fields equals the number of unquoted delimiter occurrences plus one,
unless the line ends with an unquoted delimiter, in which case that terminal
delimiter produces no trailing empty field and the number of fields equals
the unquoted-delimiter count exactly. -/
theorem claim_C3_amended (q d : Char) (L : List Char) (h1 : L ≠ [])
    (_h2 : Even (List.count q L)) :
    (lineSplit (some q) d L).length =
      countUnquoted q d false L
        + (if endsUnquotedDelim q d false L = true then 0 else 1) :=
  lineSplit_count_length L.length L le_rfl h1

theorem claim_C3_witness :
    (lineSplit (some '"') ',' ['a', ',', 'b']).length =
      countUnquoted '"' ',' false ['a', ',', 'b']
        + (if endsUnquotedDelim '"' ',' false ['a', ',', 'b'] = true then 0 else 1) :=
  claim_C3_amended '"' ',' ['a', ',', 'b'] (by decide) (by decide)

/-- Byte-level model of the Rust slice `s[1..]`: Rust panics unless byte
index 1 is a character boundary of `s`, i.e. unless `s` starts with a
character that occupies exactly one UTF-8 byte (for the empty string, byte
index 1 is out of range, also a panic). The error value stands for the
panic. -/
def sliceFromByteOne (l : List Char) : Except Unit (List Char) :=
  match l with
  | [] => .error ()
  | c :: cs => if c.utf8Size = 1 then .ok cs else .error ()

/-- Byte-faithful model of one call to `LineSplitIter::next`: `none` when
the line is empty (iteration over); otherwise `str::find` returns the BYTE
offset of the first (unquoted) delimiter, `drain(..offset)` cuts the field
off, leaving the line starting at the delimiter, and `self.line[1..]`
(loader.rs:193) then skips exactly one byte — which panics (the error
outcome) whenever the delimiter occupies more than one UTF-8 byte, since
byte 1 then falls inside the delimiter character. Offsets are char counts
here, which agree with the code up to the moment of the one-byte skip. -/
def lineSplitNext (q : Option Char) (d : Char) (line : List Char) :
    Option (Except Unit (List Char × List Char)) :=
  if line = [] then none
  else
    match findOffset q d line with
    | some off =>
      match sliceFromByteOne (line.drop off) with
      | .ok rest => some (.ok (fieldTrim q (line.take off), rest))
      | .error e => some (.error e)
    | none => some (.ok (line, []))

/-- C8: the claim (and the spec's never-fails contract) is right, but the
code is wrong: on the line `"aéb"` with delimiter `'é'` (no quote marker),
`str::find` returns byte offset 1, `drain(..1)` leaves the line `"éb"`, and
`self.line[1..]` at loader.rs:193 slices at byte 1 — inside the two-byte
character `'é'` — so `next` panics with a char-boundary error instead of
producing a field. The byte-faithful single step evaluates to the panic
outcome at this input. -/
theorem claim_C8 :
    lineSplitNext none 'é' ['a', 'é', 'b'] = some (.error ()) := by
  rfl

/-- C10: when a quote character is configured, a field terminated by an
unquoted delimiter is returned with its outer quote characters trimmed,
while the final field — the remainder returned when no further unquoted
delimiter is found — is returned verbatim, surrounding quotes retained. -/
theorem claim_C10 (q d : Char) :
    (∀ (L : List Char) (k : Nat), findUnquoted q d false L = some k →
        (lineSplit (some q) d L).head? = some (trimMatches q (L.take k)))
    ∧ (∀ L : List Char, L ≠ [] → findUnquoted q d false L = none →
        lineSplit (some q) d L = [L]) := by
  refine ⟨?_, ?_⟩
  · intro L k h
    rw [lineSplit_of_found (show findOffset (some q) d L = some k from h)]
    rfl
  · intro L h1 h2
    exact lineSplit_of_none h1 h2

theorem claim_C10_witness :
    (lineSplit (some '"') ',' ['"', 'a', '"', ',', '"', 'b', '"']).head? =
      some (trimMatches '"' ((['"', 'a', '"', ',', '"', 'b', '"'] : List Char).take 3))
    ∧ lineSplit (some '"') ',' ['"', 'b', '"'] = [['"', 'b', '"']] :=
  ⟨(claim_C10 '"' ',').1 ['"', 'a', '"', ',', '"', 'b', '"'] 3 (by decide),
   (claim_C10 '"' ',').2 ['"', 'b', '"'] (by decide) (by decide)⟩

/-! ## Columnar storage (`DataColumn` / `DataTable` in datatable.rs) -/

/-- The two error kinds of error.rs. -/
inductive DataError where
  | DataCastError : DataError
  | InvalidStateError : DataError
deriving DecidableEq

/-- Lookup in the categories map (`HashMap::get`), modelled as an
association list with unique keys. -/
def catLookup (cats : List (String × Nat)) (s : String) : Option Nat :=
  match cats with
  | [] => none
  | (k, v) :: rest => if k = s then some v else catLookup rest s

/-- A data column: optional name, optional categories map, and the raw
string data, one entry per row. -/
structure DataColumn where
  name : Option String := none
  categories : Option (List (String × Nat)) := none
  data : List String := []
deriving DecidableEq

/-- The loop of `DataColumn::update_categories`: scan the data in order,
inserting each not-yet-present value with the next unused code. -/
def updateCatsLoop : List String → List (String × Nat) → Nat → List (String × Nat)
  | [], cats, _ => cats
  | s :: ss, cats, count =>
    if (catLookup cats s).isSome then updateCatsLoop ss cats count
    else updateCatsLoop ss (cats ++ [(s, count)]) (count + 1)

/-- `DataColumn::update_categories`: rebuild the categories map from the
current data, assigning first-seen distinct values the codes 0, 1, …. -/
def DataColumn.update_categories (c : DataColumn) : DataColumn :=
  { c with categories := some (updateCatsLoop c.data [] 0) }

/-- The inner loop of `DataColumn::numeric_category_data` for one data
element of category code `x`: push onto the sub-sequence at position `i`
(counting from the given start index) `one` if `x = i`, else `zero`. -/
def pushEncoded (zero one : α) (x : Nat) : Nat → List (List α) → List (List α)
  | _, [] => []
  | i, v :: vs => (v ++ [if x = i then one else zero]) :: pushEncoded zero one x (i + 1) vs

/-- The data loop of `DataColumn::numeric_category_data`: for each data
element look up its category; an element absent from the map aborts with
`InvalidStateError`. -/
def ncdLoop (zero one : α) (cats : List (String × Nat)) :
    List String → List (List α) → Except DataError (List (List α))
  | [], outer => .ok outer
  | s :: ss, outer =>
    match catLookup cats s with
    | some x => ncdLoop zero one cats ss (pushEncoded zero one x 0 outer)
    | none => .error .InvalidStateError

/-- `DataColumn::numeric_category_data`: one-hot expansion of the column
against its categories map; `InvalidStateError` if the map is absent. -/
def DataColumn.numeric_category_data (zero one : α) (c : DataColumn) :
    Except DataError (List (List α)) :=
  match c.categories with
  | some cats => ncdLoop zero one cats c.data (List.replicate cats.length [])
  | none => .error .InvalidStateError

/-- The loop of `DataColumn::cast`: parse every element, `none` on the
first failure. -/
def castLoop (parse : String → Option α) : List String → Option (List α)
  | [] => some []
  | s :: ss =>
    match parse s with
    | some x =>
      match castLoop parse ss with
      | some xs => some (x :: xs)
      | none => none
    | none => none

/-- `DataColumn::cast::<T>`, with `T::from_str` abstracted as `parse`. -/
def DataColumn.cast (parse : String → Option α) (c : DataColumn) : Option (List α) :=
  castLoop parse c.data

/-- The loop of `DataColumn::into_vec`: parse every element,
`DataCastError` on the first failure. -/
def intoVecLoop (parse : String → Option α) : List String → Except DataError (List α)
  | [] => .ok []
  | s :: ss =>
    match parse s with
    | some x =>
      match intoVecLoop parse ss with
      | .ok xs => .ok (x :: xs)
      | .error e => .error e
    | none => .error .DataCastError

/-- `DataColumn::into_vec::<T>`. -/
def DataColumn.into_vec (parse : String → Option α) (c : DataColumn) :
    Except DataError (List α) :=
  intoVecLoop parse c.data

theorem castLoop_total {parse : String → Option α} : ∀ {l : List String},
    (∀ s ∈ l, (parse s).isSome) → ∃ v, castLoop parse l = some v := by
  intro l
  induction l with
  | nil => intro _; exact ⟨[], rfl⟩
  | cons s ss ih =>
    intro h
    obtain ⟨x, hx⟩ := Option.isSome_iff_exists.mp (h s (by simp))
    obtain ⟨xs, hxs⟩ := ih fun t ht => h t (by simp [ht])
    exact ⟨x :: xs, by simp [castLoop, hx, hxs]⟩

theorem castLoop_some_parses {parse : String → Option α} : ∀ {l : List String} {v : List α},
    castLoop parse l = some v → ∀ s ∈ l, (parse s).isSome := by
  intro l
  induction l with
  | nil => intro v _ s hs; simp at hs
  | cons t ss ih =>
    intro v hv s hs
    simp only [castLoop] at hv
    cases hp : parse t with
    | none => rw [hp] at hv; cases hv
    | some x =>
      rw [hp] at hv
      cases hcl : castLoop parse ss with
      | none => rw [hcl] at hv; cases hv
      | some xs =>
        rcases List.mem_cons.mp hs with rfl | hs'
        · simp [hp]
        · exact ih hcl s hs'

theorem castLoop_some_spec {parse : String → Option α} : ∀ {l : List String} {v : List α},
    castLoop parse l = some v →
    v.length = l.length ∧ ∀ i : Nat, (l.get? i).bind parse = v.get? i := by
  intro l
  induction l with
  | nil =>
    intro v hv
    simp only [castLoop] at hv
    injection hv with hv
    subst hv
    exact ⟨rfl, fun i => by simp⟩
  | cons t ss ih =>
    intro v hv
    simp only [castLoop] at hv
    cases hp : parse t with
    | none => rw [hp] at hv; cases hv
    | some x =>
      rw [hp] at hv
      cases hcl : castLoop parse ss with
      | none => rw [hcl] at hv; cases hv
      | some xs =>
        rw [hcl] at hv
        injection hv with hv
        subst hv
        obtain ⟨hlen, hget⟩ := ih hcl
        refine ⟨by simp [hlen], ?_⟩
        intro i
        cases i with
        | zero => simp [hp]
        | succ i => simpa using hget i

/-- C4: `DataColumn::cast::<T>` succeeds iff every element of `data` parses
as `T`, and on success the result has the same length as `data` and holds at
each index exactly the parsed value of the corresponding `data` element;
any parse failure yields `None` with no partial result. -/
theorem claim_C4 (parse : String → Option α) (c : DataColumn) :
    ((c.cast parse).isSome ↔ ∀ s ∈ c.data, (parse s).isSome)
    ∧ ∀ v, c.cast parse = some v →
        v.length = c.data.length ∧ ∀ i : Nat, (c.data.get? i).bind parse = v.get? i := by
  refine ⟨⟨?_, ?_⟩, ?_⟩
  · intro h s hs
    obtain ⟨v, hv⟩ := Option.isSome_iff_exists.mp h
    exact castLoop_some_parses hv s hs
  · intro h
    obtain ⟨v, hv⟩ := castLoop_total h
    simp [DataColumn.cast, hv]
  · intro v hv
    exact castLoop_some_spec hv

theorem claim_C4_witness :
    (["1", "2"] : List String).length = (["1", "2"] : List String).length
    ∧ ∀ i : Nat, ((["1", "2"] : List String).get? i).bind some
        = (["1", "2"] : List String).get? i :=
  (claim_C4 some ⟨none, none, ["1", "2"]⟩).2 ["1", "2"] rfl

theorem intoVecLoop_eq {parse : String → Option α} : ∀ {l : List String},
    intoVecLoop parse l =
      match castLoop parse l with
      | some v => .ok v
      | none => .error .DataCastError := by
  intro l
  induction l with
  | nil => rfl
  | cons s ss ih =>
    cases hp : parse s with
    | none => simp [intoVecLoop, castLoop, hp]
    | some x =>
      simp only [intoVecLoop, castLoop, hp]
      rw [ih]
      cases hcl : castLoop parse ss <;> simp

/-- C7: `DataColumn::into_vec::<T>` agrees with `DataColumn::cast::<T>`:
it returns `Ok(v)` exactly when `cast` returns `Some(v)` with the same
vector, and `Err(DataCastError)` exactly when `cast` returns `None`. -/
theorem claim_C7 (parse : String → Option α) (c : DataColumn) :
    (∀ v, c.into_vec parse = .ok v ↔ c.cast parse = some v)
    ∧ (c.into_vec parse = .error .DataCastError ↔ c.cast parse = none) := by
  refine ⟨?_, ?_⟩
  · intro v
    rw [DataColumn.into_vec, DataColumn.cast, intoVecLoop_eq]
    cases hcl : castLoop parse c.data <;> simp
  · rw [DataColumn.into_vec, DataColumn.cast, intoVecLoop_eq]
    cases hcl : castLoop parse c.data <;> simp

theorem claim_C7_witness :
    DataColumn.into_vec some ⟨none, none, ["x"]⟩ = .ok ["x"] :=
  ((claim_C7 some ⟨none, none, ["x"]⟩).1 ["x"]).mpr rfl

theorem ncdLoop_stale {zero one : α} {cats : List (String × Nat)} :
    ∀ {l : List String} {outer : List (List α)},
    (∃ s ∈ l, catLookup cats s = none) →
    ncdLoop zero one cats l outer = .error .InvalidStateError := by
  intro l
  induction l with
  | nil => intro outer h; obtain ⟨s, hs, _⟩ := h; simp at hs
  | cons t ss ih =>
    intro outer h
    cases hl : catLookup cats t with
    | none => simp [ncdLoop, hl]
    | some x =>
      obtain ⟨s, hs, hnone⟩ := h
      rcases List.mem_cons.mp hs with rfl | hs'
      · rw [hl] at hnone; cases hnone
      · simp only [ncdLoop, hl]
        exact ih ⟨s, hs', hnone⟩

/-- C9: a present but stale categories map — some data value is not a key of
the map — makes `numeric_category_data` return `Err(InvalidStateError)`
(modelled totally: no panic, and no all-zero row is produced). -/
theorem claim_C9 (zero one : α) (c : DataColumn) (cats : List (String × Nat))
    (hc : c.categories = some cats)
    (hstale : ∃ s ∈ c.data, catLookup cats s = none) :
    c.numeric_category_data zero one = .error .InvalidStateError := by
  rw [DataColumn.numeric_category_data, hc]
  exact ncdLoop_stale hstale

theorem claim_C9_witness :
    DataColumn.numeric_category_data (0 : Nat) 1 ⟨none, some [("a", 0)], ["a", "b"]⟩
      = .error .InvalidStateError :=
  claim_C9 0 1 ⟨none, some [("a", 0)], ["a", "b"]⟩ [("a", 0)] rfl
    ⟨"b", by simp, by simp [catLookup]⟩

theorem catLookup_append {a b : List (String × Nat)} {s : String} :
    catLookup (a ++ b) s =
      match catLookup a s with
      | some v => some v
      | none => catLookup b s := by
  induction a with
  | nil => simp [catLookup]
  | cons p rest ih =>
    obtain ⟨k, v⟩ := p
    by_cases hk : k = s
    · simp [catLookup, hk]
    · simp only [List.cons_append, catLookup, if_neg hk]
      exact ih

theorem updateCatsLoop_lookup_some :
    ∀ (l : List String) (cats : List (String × Nat)) (n : Nat) {s : String} {v : Nat},
    catLookup cats s = some v → catLookup (updateCatsLoop l cats n) s = some v := by
  intro l
  induction l with
  | nil => intro cats n s v h; exact h
  | cons t ts ih =>
    intro cats n s v h
    simp only [updateCatsLoop]
    by_cases ht : (catLookup cats t).isSome
    · rw [if_pos ht]
      exact ih cats n h
    · rw [if_neg ht]
      refine ih _ _ ?_
      rw [catLookup_append, h]

theorem updateCatsLoop_covers :
    ∀ (l : List String) (cats : List (String × Nat)) (n : Nat) {s : String},
    s ∈ l → (catLookup (updateCatsLoop l cats n) s).isSome := by
  intro l
  induction l with
  | nil => intro cats n s hs; simp at hs
  | cons t ts ih =>
    intro cats n s hs
    simp only [updateCatsLoop]
    rcases List.mem_cons.mp hs with rfl | hs'
    · by_cases ht : (catLookup cats s).isSome
      · rw [if_pos ht]
        obtain ⟨v, hv⟩ := Option.isSome_iff_exists.mp ht
        rw [updateCatsLoop_lookup_some ts cats n hv]
        rfl
      · rw [if_neg ht]
        have hnone : catLookup cats s = none := Option.not_isSome_iff_eq_none.mp ht
        have hins : catLookup (cats ++ [(s, n)]) s = some n := by
          rw [catLookup_append, hnone]
          simp [catLookup]
        rw [updateCatsLoop_lookup_some ts _ _ hins]
        rfl
    · by_cases ht : (catLookup cats t).isSome
      · rw [if_pos ht]; exact ih _ _ hs'
      · rw [if_neg ht]; exact ih _ _ hs'

theorem mem_of_catLookup : ∀ {cats : List (String × Nat)} {s : String} {v : Nat},
    catLookup cats s = some v → (s, v) ∈ cats := by
  intro cats
  induction cats with
  | nil => intro s v h; simp [catLookup] at h
  | cons p rest ih =>
    intro s v h
    obtain ⟨k, w⟩ := p
    by_cases hk : k = s
    · simp only [catLookup, if_pos hk] at h
      injection h with h
      subst hk h
      exact List.mem_cons_self _ _
    · simp only [catLookup, if_neg hk] at h
      exact List.mem_cons_of_mem _ (ih h)

theorem updateCatsLoop_value_lt :
    ∀ (l : List String) (cats : List (String × Nat)) (n : Nat), n = cats.length →
    (∀ p ∈ cats, p.2 < n) →
    ∀ p ∈ updateCatsLoop l cats n, p.2 < (updateCatsLoop l cats n).length := by
  intro l
  induction l with
  | nil =>
    intro cats n hn hinv p hp
    simp only [updateCatsLoop] at hp ⊢
    exact hn ▸ hinv p hp
  | cons t ts ih =>
    intro cats n hn hinv p hp
    simp only [updateCatsLoop] at hp ⊢
    by_cases ht : (catLookup cats t).isSome
    · rw [if_pos ht] at hp ⊢
      exact ih cats n hn hinv p hp
    · rw [if_neg ht] at hp ⊢
      refine ih (cats ++ [(t, n)]) (n + 1) (by simp [hn]) ?_ p hp
      intro q hq
      rcases List.mem_append.mp hq with hq' | hq'
      · have := hinv q hq'
        omega
      · simp at hq'
        subst hq'
        simp

theorem catLookup_eq_none_iff {cats : List (String × Nat)} {s : String} :
    catLookup cats s = none ↔ s ∉ cats.map Prod.fst := by
  induction cats with
  | nil => simp [catLookup]
  | cons p rest ih =>
    obtain ⟨k, v⟩ := p
    by_cases hk : k = s
    · simp [catLookup, hk]
    · simp [catLookup, hk, ih, Ne.symm hk]

theorem updateCatsLoop_keys_nodup :
    ∀ (l : List String) (cats : List (String × Nat)) (n : Nat),
    (cats.map Prod.fst).Nodup → ((updateCatsLoop l cats n).map Prod.fst).Nodup := by
  intro l
  induction l with
  | nil => intro cats n h; exact h
  | cons t ts ih =>
    intro cats n h
    simp only [updateCatsLoop]
    by_cases ht : (catLookup cats t).isSome
    · rw [if_pos ht]; exact ih cats n h
    · rw [if_neg ht]
      refine ih _ _ ?_
      have hnotin : t ∉ cats.map Prod.fst :=
        catLookup_eq_none_iff.mp (Option.not_isSome_iff_eq_none.mp ht)
      simp [List.nodup_append, h, hnotin]

theorem updateCatsLoop_keys_toFinset :
    ∀ (l : List String) (cats : List (String × Nat)) (n : Nat),
    ((updateCatsLoop l cats n).map Prod.fst).toFinset
      = (cats.map Prod.fst).toFinset ∪ l.toFinset := by
  intro l
  induction l with
  | nil => intro cats n; simp [updateCatsLoop]
  | cons t ts ih =>
    intro cats n
    simp only [updateCatsLoop]
    by_cases ht : (catLookup cats t).isSome
    · rw [if_pos ht, ih]
      obtain ⟨v, hv⟩ := Option.isSome_iff_exists.mp ht
      have htk : t ∈ cats.map Prod.fst := by
        have := mem_of_catLookup hv
        exact List.mem_map_of_mem Prod.fst this
      ext a
      simp only [Finset.mem_union, List.mem_toFinset, List.toFinset_cons, Finset.mem_insert]
      constructor
      · rintro (h' | h')
        · exact Or.inl h'
        · exact Or.inr (Or.inr h')
      · rintro (h' | h' | h')
        · exact Or.inl h'
        · exact Or.inl (h' ▸ htk)
        · exact Or.inr h'
    · rw [if_neg ht, ih]
      ext a
      simp only [Finset.mem_union, List.mem_toFinset, List.toFinset_cons, Finset.mem_insert,
        List.map_append, List.mem_append, List.map_cons, List.map_nil, List.mem_singleton,
        List.mem_cons]
      constructor
      · rintro (⟨h' | h'⟩ | h')
        · exact Or.inl h'
        · simp at h'
          exact Or.inr (Or.inl h')
        · exact Or.inr (Or.inr h')
      · rintro (h' | h' | h')
        · exact Or.inl (Or.inl h')
        · exact Or.inl (Or.inr (by simp [h']))
        · exact Or.inr h'

theorem pushEncoded_length {zero one : α} {x : Nat} :
    ∀ (outer : List (List α)) (j : Nat),
    (pushEncoded zero one x j outer).length = outer.length := by
  intro outer
  induction outer with
  | nil => intro j; rfl
  | cons v vs ih => intro j; simp [pushEncoded, ih]

theorem pushEncoded_get? {zero one : α} {x : Nat} :
    ∀ (outer : List (List α)) (j i : Nat),
    (pushEncoded zero one x j outer).get? i
      = (outer.get? i).map (fun v => v ++ [if x = j + i then one else zero]) := by
  intro outer
  induction outer with
  | nil => intro j i; simp [pushEncoded]
  | cons v vs ih =>
    intro j i
    cases i with
    | zero => simp [pushEncoded]
    | succ i =>
      simp only [pushEncoded, List.get?_cons_succ]
      rw [ih (j + 1) i]
      have harith : j + 1 + i = j + (i + 1) := by omega
      rw [harith]

/-- The one-hot encoding of the data list at category code `i`: `one` where
the value's code is `i`, else `zero`. -/
def encodeCol (zero one : α) (cats : List (String × Nat)) (i : Nat)
    (l : List String) : List α :=
  l.map fun s => if catLookup cats s = some i then one else zero

theorem ncdLoop_ok (zero one : α) {cats : List (String × Nat)} :
    ∀ (l : List String) (outer : List (List α)),
    (∀ s ∈ l, (catLookup cats s).isSome) →
    ∃ res, ncdLoop zero one cats l outer = .ok res
      ∧ res.length = outer.length
      ∧ ∀ i : Nat, res.get? i
          = (outer.get? i).map (fun v => v ++ encodeCol zero one cats i l) := by
  intro l
  induction l with
  | nil =>
    intro outer _
    refine ⟨outer, rfl, rfl, ?_⟩
    intro i
    cases outer.get? i <;> simp [encodeCol]
  | cons t ts ih =>
    intro outer h
    obtain ⟨x, hx⟩ := Option.isSome_iff_exists.mp (h t (by simp))
    obtain ⟨res, hres, hlen, hget⟩ :=
      ih (pushEncoded zero one x 0 outer) (fun s hs => h s (by simp [hs]))
    refine ⟨res, ?_, ?_, ?_⟩
    · simp only [ncdLoop, hx]
      exact hres
    · rw [hlen, pushEncoded_length]
    · intro i
      rw [hget i, pushEncoded_get? outer 0 i]
      cases ho : outer.get? i with
      | none => simp
      | some v =>
        simp only [Option.map_some']
        congr 1
        rw [List.append_assoc]
        congr 1
        simp only [encodeCol, List.map_cons, hx, List.singleton_append, Option.some.injEq]
        simp

theorem replicate_get? {β : Type} (b : β) : ∀ (n i : Nat),
    (List.replicate n b).get? i = if i < n then some b else none := by
  intro n
  induction n with
  | zero => intro i; simp
  | succ n ih =>
    intro i
    cases i with
    | zero => simp [List.replicate]
    | succ i =>
      simp only [List.replicate, List.get?_cons_succ, ih i, Nat.add_lt_add_iff_right]

/-- C5: after `update_categories`, `numeric_category_data` returns `Ok` with
one sub-sequence per distinct data value, each sub-sequence as long as the
column, and at every row exactly one sub-sequence — the one whose index is
the row value's category code — holds `one` while all others hold `zero`. -/
theorem claim_C5 (zero one : α) (c : DataColumn) :
    ∃ outer : List (List α),
      (c.update_categories).numeric_category_data zero one = .ok outer
      ∧ outer.length = c.data.toFinset.card
      ∧ (∀ v ∈ outer, v.length = c.data.length)
      ∧ ∀ r : Nat, r < c.data.length →
          ∃ i : Nat, i < outer.length
            ∧ (outer.get? i).bind (fun v => v.get? r) = some one
            ∧ ∀ j : Nat, j < outer.length → j ≠ i →
                (outer.get? j).bind (fun v => v.get? r) = some zero := by
  have hcov : ∀ s ∈ c.data, (catLookup (updateCatsLoop c.data [] 0) s).isSome :=
    fun s hs => updateCatsLoop_covers c.data [] 0 hs
  set cats := updateCatsLoop c.data [] 0 with hcats
  obtain ⟨res, hres, hlen, hget⟩ :=
    ncdLoop_ok zero one c.data (List.replicate cats.length []) hcov
  have hklen : res.length = cats.length := by
    rw [hlen, List.length_replicate]
  have hgetlt : ∀ i : Nat, i < cats.length →
      res.get? i = some (encodeCol zero one cats i c.data) := by
    intro i hi
    rw [hget i, replicate_get?, if_pos hi]
    simp
  have hgetge : ∀ i : Nat, ¬ i < cats.length → res.get? i = none := by
    intro i hi
    rw [hget i, replicate_get?, if_neg hi]
    rfl
  have hcard : cats.length = c.data.toFinset.card := by
    have hnodup : (cats.map Prod.fst).Nodup :=
      updateCatsLoop_keys_nodup c.data [] 0 (by simp)
    have hset : (cats.map Prod.fst).toFinset = c.data.toFinset := by
      rw [hcats, updateCatsLoop_keys_toFinset c.data [] 0]
      simp
    calc cats.length = (cats.map Prod.fst).length := by simp
      _ = (cats.map Prod.fst).toFinset.card := (List.toFinset_card_of_nodup hnodup).symm
      _ = c.data.toFinset.card := by rw [hset]
  refine ⟨res, ?_, by rw [hklen, hcard], ?_, ?_⟩
  · show (match (c.update_categories).categories with
      | some cats' => ncdLoop zero one cats' c.update_categories.data
          (List.replicate cats'.length [])
      | none => .error .InvalidStateError) = .ok res
    exact hres
  · intro v hv
    obtain ⟨i, hi⟩ := List.mem_iff_get?.mp hv
    by_cases hik : i < cats.length
    · rw [hgetlt i hik] at hi
      injection hi with hi
      subst hi
      simp [encodeCol]
    · rw [hgetge i hik] at hi
      cases hi
  · intro r hr
    obtain ⟨s, hs⟩ : ∃ s, c.data.get? r = some s := by
      cases hd : c.data.get? r with
      | none =>
        rw [List.get?_eq_none] at hd
        omega
      | some s => exact ⟨s, rfl⟩
    have hmem : s ∈ c.data := List.get?_mem hs
    obtain ⟨x, hx⟩ := Option.isSome_iff_exists.mp (hcov s hmem)
    have hxlt : x < cats.length := by
      have hpm := mem_of_catLookup hx
      have := updateCatsLoop_value_lt c.data [] 0 rfl (by simp) (s, x) (hcats ▸ hpm)
      rw [← hcats] at this
      exact this
    refine ⟨x, by rw [hklen]; exact hxlt, ?_, ?_⟩
    · rw [hgetlt x hxlt]
      simp only [Option.some_bind]
      simp only [encodeCol, List.get?_map, hs, Option.map_some']
      rw [if_pos hx]
    · intro j hj hji
      rw [hklen] at hj
      rw [hgetlt j hj]
      simp only [Option.some_bind]
      simp only [encodeCol, List.get?_map, hs, Option.map_some']
      rw [if_neg]
      rw [hx]
      simp
      omega

theorem claim_C5_witness :
    ∃ outer : List (List Nat),
      (DataColumn.update_categories ⟨none, none, ["a", "b", "a"]⟩).numeric_category_data 0 1
          = .ok outer
      ∧ outer.length = (["a", "b", "a"] : List String).toFinset.card
      ∧ (∀ v ∈ outer, v.length = (["a", "b", "a"] : List String).length)
      ∧ ∀ r : Nat, r < (["a", "b", "a"] : List String).length →
          ∃ i : Nat, i < outer.length
            ∧ (outer.get? i).bind (fun v => v.get? r) = some 1
            ∧ ∀ j : Nat, j < outer.length → j ≠ i →
                (outer.get? j).bind (fun v => v.get? r) = some 0 :=
  claim_C5 0 1 ⟨none, none, ["a", "b", "a"]⟩

/-! ## Tables (`DataTable` in datatable.rs) -/

/-- A data table: an ordered collection of columns. -/
structure DataTable where
  data_cols : List DataColumn
deriving DecidableEq

/-- `DataTable::cols`: number of columns. -/
def DataTable.cols (t : DataTable) : Nat := t.data_cols.length

/-- `DataTable::rows`: length of the first column, 0 if there are none. -/
def DataTable.rows (t : DataTable) : Nat :=
  match t.data_cols with
  | [] => 0
  | c :: _ => c.data.length

/-- The column-major path of `DataTable::into_consistent_data`: concatenate
each column's `into_vec` result in column order, propagating the first
error. -/
def colMajorLoop (parse : String → Option α) : List DataColumn → Except DataError (List α)
  | [] => .ok []
  | c :: cs =>
    match c.into_vec parse with
    | .ok x =>
      match colMajorLoop parse cs with
      | .ok rest => .ok (x ++ rest)
      | .error e => .error e
    | .error e => .error e

/-- One round of the row-major path: draw the next element from each
column's cast iterator in column order. A parse failure aborts with
`DataCastError`; an exhausted iterator contributes nothing (`None => {}`). -/
def drawRound (parse : String → Option α) :
    List (List String) → Except DataError (List α × List (List String))
  | [] => .ok ([], [])
  | [] :: its =>
    match drawRound parse its with
    | .ok (xs, rest) => .ok (xs, [] :: rest)
    | .error e => .error e
  | (s :: it) :: its =>
    match parse s with
    | some x =>
      match drawRound parse its with
      | .ok (xs, rest) => .ok (x :: xs, it :: rest)
      | .error e => .error e
    | none => .error .DataCastError

/-- The row-major path of `DataTable::into_consistent_data`: `rows()`
rounds of drawing one element per column iterator, appending in draw
order. -/
def roundLoop (parse : String → Option α) :
    Nat → List (List String) → List α → Except DataError (List α)
  | 0, _, acc => .ok acc
  | n + 1, its, acc =>
    match drawRound parse its with
    | .ok (xs, rest) => roundLoop parse n rest (acc ++ xs)
    | .error e => .error e

/-- `DataTable::into_consistent_data`: column-major or row-major flattening
followed by the `cols() * rows()` length check, which reports
`InvalidStateError` on mismatch. -/
def DataTable.into_consistent_data (parse : String → Option α) (t : DataTable)
    (row_major : Bool) : Except DataError (List α) :=
  match (if row_major then roundLoop parse t.rows (t.data_cols.map DataColumn.data) []
         else colMajorLoop parse t.data_cols) with
  | .ok td => if td.length ≠ t.cols * t.rows then .error .InvalidStateError else .ok td
  | .error e => .error e

/-- C6: on the table with columns `[["1","2"],["a","b"]]` and the identity
(text) parse, column-major export yields `["1","2","a","b"]` and row-major
export yields `["1","a","2","b"]`. -/
theorem claim_C6 :
    DataTable.into_consistent_data some
        ⟨[⟨none, none, ["1", "2"]⟩, ⟨none, none, ["a", "b"]⟩]⟩ false
      = .ok ["1", "2", "a", "b"]
    ∧ DataTable.into_consistent_data some
        ⟨[⟨none, none, ["1", "2"]⟩, ⟨none, none, ["a", "b"]⟩]⟩ true
      = .ok ["1", "a", "2", "b"] :=
  ⟨rfl, rfl⟩

theorem intoVecLoop_total {parse : String → Option α} (hp : ∀ s : String, (parse s).isSome) :
    ∀ l : List String, ∃ v, intoVecLoop parse l = .ok v ∧ v.length = l.length := by
  intro l
  induction l with
  | nil => exact ⟨[], rfl, rfl⟩
  | cons s ss ih =>
    obtain ⟨x, hx⟩ := Option.isSome_iff_exists.mp (hp s)
    obtain ⟨xs, hxs, hlen⟩ := ih
    exact ⟨x :: xs, by simp [intoVecLoop, hx, hxs], by simp [hlen]⟩

theorem colMajorLoop_total {parse : String → Option α} (hp : ∀ s : String, (parse s).isSome) :
    ∀ cs : List DataColumn, ∃ v, colMajorLoop parse cs = .ok v
      ∧ v.length = (cs.map (fun c => c.data.length)).sum := by
  intro cs
  induction cs with
  | nil => exact ⟨[], rfl, rfl⟩
  | cons c cs ih =>
    obtain ⟨x, hx, hxlen⟩ := intoVecLoop_total hp c.data
    obtain ⟨rest, hrest, hrestlen⟩ := ih
    refine ⟨x ++ rest, ?_, by simp [hxlen, hrestlen]⟩
    simp only [colMajorLoop, DataColumn.into_vec, hx, hrest]

theorem drawRound_total {parse : String → Option α} (hp : ∀ s : String, (parse s).isSome) :
    ∀ its : List (List String), ∃ xs, drawRound parse its = .ok (xs, its.map List.tail)
      ∧ xs.length = (its.map (fun it => min 1 it.length)).sum := by
  intro its
  induction its with
  | nil => exact ⟨[], rfl, rfl⟩
  | cons it its ih =>
    obtain ⟨xs, hxs, hlen⟩ := ih
    cases it with
    | nil =>
      refine ⟨xs, ?_, ?_⟩
      · simp only [drawRound, hxs, List.map_cons, List.tail_nil]
      · simp [hlen]
    | cons s rest =>
      obtain ⟨x, hx⟩ := Option.isSome_iff_exists.mp (hp s)
      refine ⟨x :: xs, ?_, ?_⟩
      · simp only [drawRound, hx, hxs, List.map_cons, List.tail_cons]
      · simp only [List.length_cons, hlen, List.map_cons, List.sum_cons]
        omega

theorem roundLoop_total {parse : String → Option α} (hp : ∀ s : String, (parse s).isSome) :
    ∀ (n : Nat) (its : List (List String)) (acc : List α),
    ∃ out, roundLoop parse n its acc = .ok out
      ∧ out.length = acc.length + (its.map (fun it => min n it.length)).sum := by
  intro n
  induction n with
  | zero =>
    intro its acc
    refine ⟨acc, rfl, ?_⟩
    have : ∀ l : List (List String), (l.map (fun it => min 0 it.length)).sum = 0 := by
      intro l
      induction l with
      | nil => rfl
      | cons a l ihl => simp [ihl]
    simp [this]
  | succ n ih =>
    intro its acc
    obtain ⟨xs, hxs, hxlen⟩ := drawRound_total hp its
    obtain ⟨out, hout, holen⟩ := ih (its.map List.tail) (acc ++ xs)
    refine ⟨out, ?_, ?_⟩
    · simp only [roundLoop, hxs]
      exact hout
    · rw [holen]
      simp only [List.length_append, hxlen, List.map_map]
      have hstep : ∀ l : List (List String),
          ((l.map (fun it => min 1 it.length)).sum
            + (l.map ((fun it => min n it.length) ∘ List.tail)).sum)
          = (l.map (fun it => min (n + 1) it.length)).sum := by
        intro l
        induction l with
        | nil => rfl
        | cons a l ihl =>
          simp only [List.map_cons, List.sum_cons, Function.comp_apply]
          rw [← ihl]
          cases a with
          | nil =>
            simp only [List.tail_nil, List.length_nil, Nat.min_zero]
            omega
          | cons b bs =>
            simp only [List.tail_cons, List.length_cons]
            have h1 : min 1 (bs.length + 1) = 1 := by omega
            have h2 : min (n + 1) (bs.length + 1) = min n bs.length + 1 := by omega
            rw [h1, h2]
            omega
      rw [← hstep its]
      omega

theorem list_sum_le : ∀ (l : List Nat) (B : Nat), (∀ x ∈ l, x ≤ B) →
    l.sum ≤ B * l.length := by
  intro l
  induction l with
  | nil => intro B _; simp
  | cons a as ih =>
    intro B h
    have h1 : a ≤ B := h a (by simp)
    have h2 : as.sum ≤ B * as.length := ih B fun x hx => h x (by simp [hx])
    have h3 : B * (as.length + 1) = B * as.length + B := by ring
    simp only [List.sum_cons, List.length_cons, h3]
    omega

theorem list_sum_lt : ∀ (l : List Nat) (B : Nat), (∀ x ∈ l, x ≤ B) →
    (∃ x ∈ l, x < B) → l.sum < B * l.length := by
  intro l
  induction l with
  | nil =>
    intro B _ h
    obtain ⟨x, hx, _⟩ := h
    simp at hx
  | cons a as ih =>
    intro B hle hex
    have h3 : B * (as.length + 1) = B * as.length + B := by ring
    simp only [List.sum_cons, List.length_cons, h3]
    obtain ⟨x, hx, hxB⟩ := hex
    rcases List.mem_cons.mp hx with rfl | hx'
    · have h2 : as.sum ≤ B * as.length := list_sum_le as B fun y hy => hle y (by simp [hy])
      omega
    · have h1 : a ≤ B := hle a (by simp)
      have h2 : as.sum < B * as.length := ih B (fun y hy => hle y (by simp [hy])) ⟨x, hx', hxB⟩
      omega

/-- C1 (amended): the `cols() * rows()` length check only reports a ragged
table when it changes the output length. With `row_major = true` (and a
total parse) it fires whenever some column is shorter than the first column;
with `row_major = false` it fires whenever the total number of cells differs
from `cols() * rows()`. In the remaining ragged cases (row-major with every
column at least as long as the first; column-major with total cell count
equal to `cols() * rows()`) `into_consistent_data` returns `Ok` with
truncated or mixed data. -/
theorem claim_C1_amended (parse : String → Option α) (hp : ∀ s : String, (parse s).isSome)
    (t : DataTable) :
    ((∃ c ∈ t.data_cols, c.data.length < t.rows) →
        t.into_consistent_data parse true = .error .InvalidStateError)
    ∧ ((t.data_cols.map (fun c => c.data.length)).sum ≠ t.cols * t.rows →
        t.into_consistent_data parse false = .error .InvalidStateError) := by
  constructor
  · rintro ⟨c0, hc0, hclt⟩
    obtain ⟨out, hout, hlen⟩ := roundLoop_total hp t.rows (t.data_cols.map DataColumn.data) []
    have hsum : out.length = (t.data_cols.map (fun c => min t.rows c.data.length)).sum := by
      rw [hlen, List.map_map]
      simp only [List.length_nil, Nat.zero_add]
      rfl
    have hslt : (t.data_cols.map (fun c => min t.rows c.data.length)).sum
        < t.rows * t.data_cols.length := by
      have hmlen : (t.data_cols.map (fun c => min t.rows c.data.length)).length
          = t.data_cols.length := by simp
      have h := list_sum_lt (t.data_cols.map (fun c => min t.rows c.data.length)) t.rows
        (by
          intro x hx
          obtain ⟨c, _, rfl⟩ := List.mem_map.mp hx
          exact Nat.min_le_left _ _)
        ⟨min t.rows c0.data.length, List.mem_map.mpr ⟨c0, hc0, rfl⟩, by omega⟩
      rw [hmlen] at h
      exact h
    have hunfold : t.into_consistent_data parse true
        = match roundLoop parse t.rows (t.data_cols.map DataColumn.data) [] with
          | Except.ok td =>
              if td.length ≠ t.cols * t.rows
              then Except.error DataError.InvalidStateError else Except.ok td
          | Except.error e => Except.error e := rfl
    rw [hunfold, hout]
    have hcr : t.cols * t.rows = t.rows * t.data_cols.length := by
      rw [DataTable.cols]; ring
    have hne : out.length ≠ t.cols * t.rows := by
      rw [hsum, hcr]
      omega
    simp [hne]
  · intro hne
    obtain ⟨out, hout, hlen⟩ := colMajorLoop_total hp t.data_cols
    have hunfold : t.into_consistent_data parse false
        = match colMajorLoop parse t.data_cols with
          | Except.ok td =>
              if td.length ≠ t.cols * t.rows
              then Except.error DataError.InvalidStateError else Except.ok td
          | Except.error e => Except.error e := rfl
    rw [hunfold, hout]
    have hne' : out.length ≠ t.cols * t.rows := by rw [hlen]; exact hne
    simp [hne']

/-- C1: the claim as stated is false: this ragged table (columns of lengths
1 and 2, so the second column's length differs from the first's) makes
`into_consistent_data` with `row_major = true` return `Ok` with silently
truncated data (`"c"` is dropped), not `Err(InvalidStateError)`. -/
theorem claim_C1_counterexample :
    (DataTable.into_consistent_data some
        ⟨[⟨none, none, ["a"]⟩, ⟨none, none, ["b", "c"]⟩]⟩ true : Except DataError (List String))
      = .ok ["a", "b"]
    ∧ ((⟨[⟨none, none, ["a"]⟩, ⟨none, none, ["b", "c"]⟩]⟩ : DataTable).data_cols.map
        (fun c => c.data.length)) = [1, 2] :=
  ⟨rfl, rfl⟩

theorem claim_C1_witness :
    DataTable.into_consistent_data some
        ⟨[⟨none, none, ["a", "b"]⟩, ⟨none, none, ["c"]⟩]⟩ true = .error .InvalidStateError
    ∧ DataTable.into_consistent_data some
        ⟨[⟨none, none, ["a", "b"]⟩, ⟨none, none, ["c"]⟩]⟩ false = .error .InvalidStateError :=
  ⟨(claim_C1_amended some (fun _ => rfl) _).1
      ⟨⟨none, none, ["c"]⟩, by simp, by decide⟩,
   (claim_C1_amended some (fun _ => rfl) _).2 (by decide)⟩

end RustyData
